import Mathlib

/-!
Verification of the blueprint tool (src/create.js): an indentation-outline
to directory-tree converter.  The development shallowly embeds the two core
functions of the program — the line/tree construction (`parseLine`,
`buildTree`) and the directory materializer (`createFolders`) — as Lean
functions over `List Char` strings, and proves the specified properties
about them.

Modelling conventions:
* JavaScript strings are `List Char`; `String.prototype.split('\n')` is
  `splitOnNl`; `trim` and the regex class `\s` are modelled by `trim` and
  `jsWhitespace` (the ECMAScript whitespace/line-terminator set).
* The mutable ancestry stack of `buildTree` is embedded as a pure stack of
  frames `(level, name, childrenSoFar)`.  In the source, a node is appended
  to its parent's child array at creation time and its child array is then
  mutated in place through the stack; here a frame's node is finalized and
  appended to the parent frame's child list at the moment the frame is
  popped, which yields the same final tree (children accumulate in the same
  order, and every frame is eventually popped — by the sentinel-guarded
  loop or, at end of input, implicitly, modelled by `closeAll`).
* The filesystem is a list of existing paths, a path being the list of
  name segments below the invocation root; `path.join(parent, name)` is
  segment append, `fs.existsSync` is membership, and
  `fs.mkdirSync(p, { recursive: true })` adds every missing prefix of `p`
  (`mkdirRec`).  The `console.log` stream of per-path outcomes is the
  returned report list, and a thrown filesystem error is `Except.error`
  carrying the state and partial log at the throw, with the failing path.
  Whether `mkdirSync` throws at a given path is an oracle `err : Path → Bool`,
  consulted exactly where the source would call `mkdirSync`.
-/

/-- The ECMAScript whitespace class: the characters matched by the regex
class `\s` and removed by `String.prototype.trim` (WhiteSpace plus
LineTerminator). -/
def jsWhitespace (c : Char) : Bool :=
  c = ' ' || c = '\t' || c = '\n' || c = '\r' ||
  c.val = 0x000b || c.val = 0x000c || c.val = 0x00a0 || c.val = 0x1680 ||
  (0x2000 ≤ c.val && c.val ≤ 0x200a) ||
  c.val = 0x2028 || c.val = 0x2029 || c.val = 0x202f || c.val = 0x205f ||
  c.val = 0x3000 || c.val = 0xfeff

/-- Leading-whitespace removal, as in `String.prototype.trim` (left half). -/
def trimLeft (l : List Char) : List Char := l.dropWhile jsWhitespace

/-- Trailing-whitespace removal, as in `String.prototype.trim` (right half). -/
def trimRight (l : List Char) : List Char :=
  (l.reverse.dropWhile jsWhitespace).reverse

/-- `String.prototype.trim`: whitespace removed from both ends. -/
def trim (l : List Char) : List Char := trimRight (trimLeft l)

/-- The record returned by `parseLine` in src/create.js:
`{ level, content }`. -/
structure Parsed where
  level : Nat
  content : List Char
deriving DecidableEq

/-- `parseLine` from src/create.js: `null` (here `none`) for a line that is
empty after trimming; otherwise the indent level is the number of leading
characters matched by `/^(\s*)/` divided by 4 (floored), and the content is
the trimmed line. -/
def parseLine (line : List Char) : Option Parsed :=
  if trim line = [] then none
  else some ⟨(line.takeWhile jsWhitespace).length / 4, trim line⟩

/-- The tree node `{ name, children }` built by `buildTree`. -/
inductive TNode where
  | mk (name : List Char) (children : List TNode)

/-- Projection: the node's `name` field. -/
def TNode.name : TNode → List Char
  | .mk n _ => n

/-- Projection: the node's `children` field. -/
def TNode.children : TNode → List TNode
  | .mk _ c => c

/-- A stack frame of `buildTree`: `{ level, children }`, together with the
name of the node the frame belongs to (needed here because the node is
finalized when the frame is popped; the source instead mutates the node in
place).  The sentinel frame `{ level: -1, children: root }` is not
represented: the stack holds only node frames, and the root list is carried
separately, so the source's `stack.length > 1` pop guard becomes "the stack
is nonempty". -/
abbrev Frame := Nat × List Char × List TNode

/-- Continue popping frames whose level is `≥ level`, carrying the node
just finalized from the frame popped above; the pending node is appended to
the children of the frame it lands on (or to the root list if the stack
empties, i.e. the pending node's parent is the sentinel). -/
def popGEAux (level : Nat) : TNode → List Frame → List TNode →
    List Frame × List TNode
  | pend, [], roots => ([], roots ++ [pend])
  | pend, (l, nm, ch) :: rest, roots =>
    if level ≤ l then popGEAux level (.mk nm (ch ++ [pend])) rest roots
    else ((l, nm, ch ++ [pend]) :: rest, roots)

/-- The pop loop of `buildTree`:
`while (stack.length > 1 && stack[stack.length - 1].level >= level) stack.pop()`. -/
def popGE (level : Nat) : List Frame → List TNode → List Frame × List TNode
  | [], roots => ([], roots)
  | (l, nm, ch) :: rest, roots =>
    if level ≤ l then popGEAux level (.mk nm ch) rest roots
    else ((l, nm, ch) :: rest, roots)

/-- Close the remaining open frames at end of input (in the source this is
implicit: the nodes are already wired into the tree by mutation). -/
def closeAllAux : TNode → List Frame → List TNode → List TNode
  | pend, [], roots => roots ++ [pend]
  | pend, (_, nm, ch) :: rest, roots => closeAllAux (.mk nm (ch ++ [pend])) rest roots

/-- Close every open frame, returning the finished root list. -/
def closeAll : List Frame → List TNode → List TNode
  | [], roots => roots
  | (_, nm, ch) :: rest, roots => closeAllAux (.mk nm ch) rest roots

/-- One loop iteration of `buildTree` for an already-parsed record: pop to
the correct parent, then push a frame for the new node. -/
def stepP (st : List Frame × List TNode) (p : Parsed) : List Frame × List TNode :=
  let st' := popGE p.level st.1 st.2
  ((p.level, p.content, []) :: st'.1, st'.2)

/-- One loop iteration of `buildTree` for a raw line: `parseLine` it, skip
it if `null`. -/
def step (st : List Frame × List TNode) (line : List Char) : List Frame × List TNode :=
  match parseLine line with
  | none => st
  | some p => stepP st p

/-- `buildTree` from src/create.js: fold the loop body over the lines and
return the root list. -/
def buildTree (lines : List (List Char)) : List TNode :=
  let st := lines.foldl step ([], [])
  closeAll st.1 st.2

/-- Helper for `splitOnNl`: prepend a character to the first piece. -/
def consHead (c : Char) : List (List Char) → List (List Char)
  | [] => [[c]]
  | l :: ls => (c :: l) :: ls

/-- `String.prototype.split('\n')` on the raw template text (as read in
`main`): the resulting pieces, in order; an empty string yields `[""]`,
and a trailing newline yields a final empty piece, as in JavaScript. -/
def splitOnNl : List Char → List (List Char)
  | [] => [[]]
  | c :: rest =>
    if c = '\n' then [] :: splitOnNl rest
    else consHead c (splitOnNl rest)

/-- The parsing pipeline of `main` in src/create.js:
`buildTree(content.split('\n'))`. -/
def parseText (text : List Char) : List TNode :=
  buildTree (splitOnNl text)

/-- The names of the forest's nodes in depth-first pre-order, siblings in
list order. -/
def preorderNames : List TNode → List (List Char)
  | [] => []
  | .mk nm ch :: rest => nm :: (preorderNames ch ++ preorderNames rest)

/-- Modelled from the spec: the forest described by §3/§8 P2 for a sequence
of Line Records — each record's parent is the nearest preceding record with
strictly smaller depth.  Equivalently, stated recursively: the first record
is a root (it has no preceding record of any depth), its subtree consists
of exactly the maximal run of immediately following records of strictly
greater depth (those and only those have it or a member of that run as
nearest strictly-shallower predecessor), and the records after that run —
whose depth is ≤ the first record's, so that none of the run's records nor
the first can be a strictly-shallower predecessor taking priority over a
later one — form the remaining forest. -/
theorem takeWhile_length_le {α : Type} (p : α → Bool) (l : List α) :
    (l.takeWhile p).length ≤ l.length := by
  induction l with
  | nil => simp
  | cons a l ih =>
    by_cases h : p a
    · simp [List.takeWhile_cons_of_pos h]; omega
    · simp [List.takeWhile_cons_of_neg h]

theorem dropWhile_length_le {α : Type} (p : α → Bool) (l : List α) :
    (l.dropWhile p).length ≤ l.length := by
  induction l with
  | nil => simp
  | cons a l ih =>
    by_cases h : p a
    · simp [List.dropWhile_cons_of_pos h]; omega
    · simp [List.dropWhile_cons_of_neg h]

def specBuild : List Parsed → List TNode
  | [] => []
  | r :: rest =>
    .mk r.content (specBuild (rest.takeWhile (fun p => r.level < p.level))) ::
      specBuild (rest.dropWhile (fun p => r.level < p.level))
termination_by l => l.length
decreasing_by
  · exact Nat.lt_succ_of_le (takeWhile_length_le _ rest)
  · exact Nat.lt_succ_of_le (dropWhile_length_le _ rest)

theorem mem_takeWhile_pred {α : Type} {p : α → Bool} {l : List α} {a : α}
    (h : a ∈ l.takeWhile p) : p a = true := by
  induction l with
  | nil => simp at h
  | cons b l ih =>
    by_cases hb : p b
    · rw [List.takeWhile_cons_of_pos hb] at h
      rcases List.mem_cons.mp h with h | h
      · exact h ▸ hb
      · exact ih h
    · rw [List.takeWhile_cons_of_neg hb] at h
      simp at h

theorem dropWhile_head_false {α : Type} {p : α → Bool} {l : List α} {a : α}
    {t : List α} (h : l.dropWhile p = a :: t) : p a = false := by
  induction l with
  | nil => simp at h
  | cons b l ih =>
    by_cases hb : p b
    · rw [List.dropWhile_cons_of_pos hb] at h
      exact ih h
    · rw [List.dropWhile_cons_of_neg hb] at h
      cases h
      exact Bool.of_not_eq_true hb

theorem mem_dropWhile_mem {α : Type} {p : α → Bool} {l : List α} {a : α}
    (h : a ∈ l.dropWhile p) : a ∈ l := by
  have h2 : l.takeWhile p ++ l.dropWhile p = l :=
    List.takeWhile_append_dropWhile _ _
  rw [← h2]
  exact List.mem_append_right _ h

theorem stepP_no_pop {M : Nat} {nm : List Char} {ch : List TNode}
    {S : List Frame} {roots : List TNode} {p : Parsed} (h : M < p.level) :
    stepP ((M, nm, ch) :: S, roots) p =
      ((p.level, p.content, []) :: (M, nm, ch) :: S, roots) := by
  simp [stepP, popGE, Nat.not_le.mpr h]

theorem stepP_empty {roots : List TNode} {p : Parsed} :
    stepP (([] : List Frame), roots) p = ([(p.level, p.content, [])], roots) := by
  simp [stepP, popGE]

/-- Main stack-machine invariant, by strong induction on the number of
records: running the machine over records that are all strictly deeper than
the top frame, and then either closing every frame or popping down to a
level `l` at most the top frame's, is the same as first attaching the spec
forest of those records to the top frame's children.  The pop case is
needed for the induction: a later, shallower record pops the machine's
intermediate frames exactly back to this configuration. -/
theorem runSpecAux : ∀ (n : Nat) (recs : List Parsed), recs.length ≤ n →
    ((∀ (M : Nat) (nm : List Char) (ch : List TNode) (S : List Frame)
        (roots : List TNode), (∀ p ∈ recs, M < p.level) →
      closeAll (recs.foldl stepP ((M, nm, ch) :: S, roots)).1
          (recs.foldl stepP ((M, nm, ch) :: S, roots)).2 =
        closeAll ((M, nm, ch ++ specBuild recs) :: S) roots)
     ∧
     (∀ (M : Nat) (nm : List Char) (ch : List TNode) (S : List Frame)
        (roots : List TNode) (l : Nat), (∀ p ∈ recs, M < p.level) → l ≤ M →
      popGE l (recs.foldl stepP ((M, nm, ch) :: S, roots)).1
          (recs.foldl stepP ((M, nm, ch) :: S, roots)).2 =
        popGE l ((M, nm, ch ++ specBuild recs) :: S) roots)) := by
  intro n
  induction n with
  | zero =>
    intro recs hlen
    have hnil : recs = [] := List.length_eq_zero.mp (Nat.le_zero.mp hlen)
    subst hnil
    constructor
    · intro M nm ch S roots hM
      simp [specBuild]
    · intro M nm ch S roots l hM hl
      simp [specBuild]
  | succ n ih =>
    intro recs hlen
    cases recs with
    | nil =>
      constructor
      · intro M nm ch S roots hM
        simp [specBuild]
      · intro M nm ch S roots l hM hl
        simp [specBuild]
    | cons r rest =>
      have hrestlen : rest.length ≤ n := by
        simp only [List.length_cons] at hlen
        omega
      have hinnerlen : (rest.takeWhile (fun q => r.level < q.level)).length ≤ n :=
        le_trans (takeWhile_length_le _ _) hrestlen
      have hsplit : rest.takeWhile (fun q => r.level < q.level) ++
          rest.dropWhile (fun q => r.level < q.level) = rest :=
        List.takeWhile_append_dropWhile _ _
      have hinner : ∀ p ∈ rest.takeWhile (fun q => r.level < q.level),
          r.level < p.level := fun p hp => by
        have := mem_takeWhile_pred hp
        simpa using this
      constructor
      · intro M nm ch S roots hM
        have hr : M < r.level := hM r (List.mem_cons_self r rest)
        rw [List.foldl_cons, stepP_no_pop hr]
        rcases houter : rest.dropWhile (fun q => r.level < q.level) with _ | ⟨o, outer⟩
        · rw [houter, List.append_nil] at hsplit
          conv_lhs => rw [← hsplit]
          rw [(ih _ hinnerlen).1 r.level r.content [] ((M, nm, ch) :: S) roots hinner]
          simp only [List.nil_append, closeAll, closeAllAux]
          simp only [specBuild, houter]
        · have ho : o.level ≤ r.level := by
            have h1 : ¬ (r.level < o.level) := by
              have := dropWhile_head_false houter
              simpa using this
            omega
          have hoM : M < o.level := hM o (List.mem_cons_of_mem _ (by
            rw [← hsplit, houter]
            exact List.mem_append_right _ (List.mem_cons_self o outer)))
          have houterlen : (o :: outer).length ≤ n := by
            rw [← houter]
            exact le_trans (dropWhile_length_le _ _) hrestlen
          have hfold : rest.foldl stepP
                ((r.level, r.content, []) :: (M, nm, ch) :: S, roots) =
              (o :: outer).foldl stepP
                ((rest.takeWhile (fun q => r.level < q.level)).foldl stepP
                  ((r.level, r.content, []) :: (M, nm, ch) :: S, roots)) := by
            conv_lhs => rw [← hsplit, houter]
            rw [List.foldl_append]
          rw [hfold, List.foldl_cons]
          have hpop := (ih _ hinnerlen).2 r.level r.content []
            ((M, nm, ch) :: S) roots o.level hinner ho
          have hstep : stepP ((rest.takeWhile (fun q => r.level < q.level)).foldl
                stepP ((r.level, r.content, []) :: (M, nm, ch) :: S, roots)) o =
              ((o.level, o.content, []) :: (M, nm, ch ++
                  [TNode.mk r.content (specBuild (rest.takeWhile
                    (fun q => r.level < q.level)))]) :: S, roots) := by
            rw [stepP]
            rw [show ((rest.takeWhile (fun q => r.level < q.level)).foldl stepP
                ((r.level, r.content, []) :: (M, nm, ch) :: S, roots)) =
                (((rest.takeWhile (fun q => r.level < q.level)).foldl stepP
                  ((r.level, r.content, []) :: (M, nm, ch) :: S, roots)).1,
                 ((rest.takeWhile (fun q => r.level < q.level)).foldl stepP
                  ((r.level, r.content, []) :: (M, nm, ch) :: S, roots)).2) from rfl]
            rw [hpop]
            simp [popGE, popGEAux, ho, Nat.not_le.mpr hoM]
          rw [hstep]
          have houterM : ∀ p ∈ o :: outer, M < p.level := fun p hp =>
            hM p (List.mem_cons_of_mem _ (by
              rw [← hsplit, houter]
              exact List.mem_append_right _ hp))
          have hrec := (ih _ houterlen).1 M nm
            (ch ++ [TNode.mk r.content (specBuild (rest.takeWhile
              (fun q => r.level < q.level)))]) S roots houterM
          rw [List.foldl_cons, stepP_no_pop hoM] at hrec
          rw [hrec]
          simp only [specBuild, houter]
          simp [List.append_assoc]
      · intro M nm ch S roots l hM hl
        have hr : M < r.level := hM r (List.mem_cons_self r rest)
        rw [List.foldl_cons, stepP_no_pop hr]
        rcases houter : rest.dropWhile (fun q => r.level < q.level) with _ | ⟨o, outer⟩
        · rw [houter, List.append_nil] at hsplit
          conv_lhs => rw [← hsplit]
          have hlr : l ≤ r.level := by omega
          rw [(ih _ hinnerlen).2 r.level r.content [] ((M, nm, ch) :: S) roots l hinner hlr]
          simp only [List.nil_append, popGE, popGEAux, specBuild, houter]
          simp [popGE, popGEAux, hlr, hl]
        · have ho : o.level ≤ r.level := by
            have h1 : ¬ (r.level < o.level) := by
              have := dropWhile_head_false houter
              simpa using this
            omega
          have hoM : M < o.level := hM o (List.mem_cons_of_mem _ (by
            rw [← hsplit, houter]
            exact List.mem_append_right _ (List.mem_cons_self o outer)))
          have houterlen : (o :: outer).length ≤ n := by
            rw [← houter]
            exact le_trans (dropWhile_length_le _ _) hrestlen
          have hfold : rest.foldl stepP
                ((r.level, r.content, []) :: (M, nm, ch) :: S, roots) =
              (o :: outer).foldl stepP
                ((rest.takeWhile (fun q => r.level < q.level)).foldl stepP
                  ((r.level, r.content, []) :: (M, nm, ch) :: S, roots)) := by
            conv_lhs => rw [← hsplit, houter]
            rw [List.foldl_append]
          rw [hfold, List.foldl_cons]
          have hpop := (ih _ hinnerlen).2 r.level r.content []
            ((M, nm, ch) :: S) roots o.level hinner ho
          have hstep : stepP ((rest.takeWhile (fun q => r.level < q.level)).foldl
                stepP ((r.level, r.content, []) :: (M, nm, ch) :: S, roots)) o =
              ((o.level, o.content, []) :: (M, nm, ch ++
                  [TNode.mk r.content (specBuild (rest.takeWhile
                    (fun q => r.level < q.level)))]) :: S, roots) := by
            rw [stepP]
            rw [show ((rest.takeWhile (fun q => r.level < q.level)).foldl stepP
                ((r.level, r.content, []) :: (M, nm, ch) :: S, roots)) =
                (((rest.takeWhile (fun q => r.level < q.level)).foldl stepP
                  ((r.level, r.content, []) :: (M, nm, ch) :: S, roots)).1,
                 ((rest.takeWhile (fun q => r.level < q.level)).foldl stepP
                  ((r.level, r.content, []) :: (M, nm, ch) :: S, roots)).2) from rfl]
            rw [hpop]
            simp [popGE, popGEAux, ho, Nat.not_le.mpr hoM]
          rw [hstep]
          have houterM : ∀ p ∈ o :: outer, M < p.level := fun p hp =>
            hM p (List.mem_cons_of_mem _ (by
              rw [← hsplit, houter]
              exact List.mem_append_right _ hp))
          have hrec := (ih _ houterlen).2 M nm
            (ch ++ [TNode.mk r.content (specBuild (rest.takeWhile
              (fun q => r.level < q.level)))]) S roots l houterM hl
          rw [List.foldl_cons, stepP_no_pop hoM] at hrec
          rw [hrec]
          simp only [specBuild, houter]
          simp [List.append_assoc]

/-- Top-level machine run from the empty stack: the machine appends the
spec forest of the records to the roots accumulated so far. -/
theorem runTop : ∀ (n : Nat) (recs : List Parsed), recs.length ≤ n →
    ∀ roots : List TNode,
    closeAll (recs.foldl stepP (([] : List Frame), roots)).1
        (recs.foldl stepP (([] : List Frame), roots)).2 =
      roots ++ specBuild recs := by
  intro n
  induction n with
  | zero =>
    intro recs hlen roots
    have hnil : recs = [] := List.length_eq_zero.mp (Nat.le_zero.mp hlen)
    subst hnil
    simp [closeAll, specBuild]
  | succ n ih =>
    intro recs hlen roots
    cases recs with
    | nil => simp [closeAll, specBuild]
    | cons r rest =>
      have hrestlen : rest.length ≤ n := by
        simp only [List.length_cons] at hlen
        omega
      have hinnerlen : (rest.takeWhile (fun q => r.level < q.level)).length ≤ n :=
        le_trans (takeWhile_length_le _ _) hrestlen
      have hsplit : rest.takeWhile (fun q => r.level < q.level) ++
          rest.dropWhile (fun q => r.level < q.level) = rest :=
        List.takeWhile_append_dropWhile _ _
      have hinner : ∀ p ∈ rest.takeWhile (fun q => r.level < q.level),
          r.level < p.level := fun p hp => by
        have := mem_takeWhile_pred hp
        simpa using this
      rw [List.foldl_cons, stepP_empty]
      rcases houter : rest.dropWhile (fun q => r.level < q.level) with _ | ⟨o, outer⟩
      · rw [houter, List.append_nil] at hsplit
        conv_lhs => rw [← hsplit]
        rw [(runSpecAux n _ hinnerlen).1 r.level r.content [] [] roots hinner]
        simp only [List.nil_append, closeAll, closeAllAux]
        simp only [specBuild, houter]
      · have ho : o.level ≤ r.level := by
          have h1 : ¬ (r.level < o.level) := by
            have := dropWhile_head_false houter
            simpa using this
          omega
        have houterlen : (o :: outer).length ≤ n := by
          rw [← houter]
          exact le_trans (dropWhile_length_le _ _) hrestlen
        have hfold : rest.foldl stepP
              (([(r.level, r.content, [])] : List Frame), roots) =
            (o :: outer).foldl stepP
              ((rest.takeWhile (fun q => r.level < q.level)).foldl stepP
                (([(r.level, r.content, [])] : List Frame), roots)) := by
          conv_lhs => rw [← hsplit, houter]
          rw [List.foldl_append]
        rw [hfold, List.foldl_cons]
        have hpop := (runSpecAux n _ hinnerlen).2 r.level r.content []
          [] roots o.level hinner ho
        have hstep : stepP ((rest.takeWhile (fun q => r.level < q.level)).foldl
              stepP (([(r.level, r.content, [])] : List Frame), roots)) o =
            (([(o.level, o.content, [])] : List Frame),
              roots ++ [TNode.mk r.content (specBuild (rest.takeWhile
                (fun q => r.level < q.level)))]) := by
          rw [stepP]
          rw [show ((rest.takeWhile (fun q => r.level < q.level)).foldl stepP
              (([(r.level, r.content, [])] : List Frame), roots)) =
              (((rest.takeWhile (fun q => r.level < q.level)).foldl stepP
                (([(r.level, r.content, [])] : List Frame), roots)).1,
               ((rest.takeWhile (fun q => r.level < q.level)).foldl stepP
                (([(r.level, r.content, [])] : List Frame), roots)).2) from rfl]
          rw [hpop]
          simp [popGE, popGEAux, ho]
        rw [hstep]
        have hout := ih (o :: outer) houterlen
          (roots ++ [TNode.mk r.content (specBuild (rest.takeWhile
            (fun q => r.level < q.level)))])
        rw [List.foldl_cons, stepP_empty] at hout
        rw [hout]
        simp only [specBuild, houter]
        simp [List.append_assoc]

/-- Folding the raw-line step over lines is folding the record step over
the records surviving `parseLine`. -/
theorem foldl_step_filterMap : ∀ (lines : List (List Char))
    (st : List Frame × List TNode),
    lines.foldl step st = (lines.filterMap parseLine).foldl stepP st := by
  intro lines
  induction lines with
  | nil => intro st; rfl
  | cons line lines ih =>
    intro st
    rw [List.foldl_cons]
    cases hp : parseLine line with
    | none =>
      rw [List.filterMap_cons_none hp]
      rw [show step st line = st from by simp [step, hp]]
      exact ih st
    | some p =>
      rw [List.filterMap_cons_some hp]
      rw [show step st line = stepP st p from by simp [step, hp]]
      rw [List.foldl_cons]
      exact ih (stepP st p)

/-- The stack machine of `buildTree` computes exactly the forest described
by the spec's nearest-strictly-shallower-ancestor rule (`specBuild`) on the
records surviving `parseLine`. -/
theorem buildTree_eq_specBuild (lines : List (List Char)) :
    buildTree lines = specBuild (lines.filterMap parseLine) := by
  rw [buildTree, foldl_step_filterMap]
  exact runTop (lines.filterMap parseLine).length _ (le_refl _) []

theorem dropWhile_all {α : Type} {p : α → Bool} :
    ∀ {l : List α}, (∀ c ∈ l, p c = true) → l.dropWhile p = [] := by
  intro l
  induction l with
  | nil => intro _; rfl
  | cons a l ih =>
    intro h
    rw [List.dropWhile_cons_of_pos (h a (List.mem_cons_self a l))]
    exact ih fun c hc => h c (List.mem_cons_of_mem a hc)

/-- What `parseLine` returns when it returns a record. -/
theorem parseLine_some_level {line : List Char} {p : Parsed}
    (h : parseLine line = some p) :
    p.level = (line.takeWhile jsWhitespace).length / 4 ∧ p.content = trim line := by
  rw [parseLine] at h
  by_cases ht : trim line = []
  · rw [if_pos ht] at h
    cases h
  · rw [if_neg ht] at h
    cases h
    exact ⟨rfl, rfl⟩

/-- The spec forest's pre-order names are the records' contents in input
order. -/
theorem preorderNames_specBuild : ∀ (n : Nat) (recs : List Parsed),
    recs.length ≤ n →
    preorderNames (specBuild recs) = recs.map Parsed.content := by
  intro n
  induction n with
  | zero =>
    intro recs hlen
    have hnil : recs = [] := List.length_eq_zero.mp (Nat.le_zero.mp hlen)
    subst hnil
    simp [specBuild, preorderNames]
  | succ n ih =>
    intro recs hlen
    cases recs with
    | nil => simp [specBuild, preorderNames]
    | cons r rest =>
      have hrestlen : rest.length ≤ n := by
        simp only [List.length_cons] at hlen
        omega
      have hsplit : rest.takeWhile (fun q => r.level < q.level) ++
          rest.dropWhile (fun q => r.level < q.level) = rest :=
        List.takeWhile_append_dropWhile _ _
      simp only [specBuild, preorderNames]
      rw [ih _ (le_trans (takeWhile_length_le _ _) hrestlen),
        ih _ (le_trans (dropWhile_length_le _ _) hrestlen)]
      rw [← List.map_append, hsplit, List.map_cons]

/-- When every record has level 0 the spec forest is a flat list of
childless roots. -/
theorem specBuild_all_zero : ∀ (n : Nat) (recs : List Parsed),
    recs.length ≤ n → (∀ p ∈ recs, p.level = 0) →
    specBuild recs = recs.map (fun p => TNode.mk p.content []) := by
  intro n
  induction n with
  | zero =>
    intro recs hlen _
    have hnil : recs = [] := List.length_eq_zero.mp (Nat.le_zero.mp hlen)
    subst hnil
    simp [specBuild]
  | succ n ih =>
    intro recs hlen hz
    cases recs with
    | nil => simp [specBuild]
    | cons r rest =>
      have hrestlen : rest.length ≤ n := by
        simp only [List.length_cons] at hlen
        omega
      have hr : r.level = 0 := hz r (List.mem_cons_self r rest)
      have htake : rest.takeWhile (fun q => r.level < q.level) = [] := by
        cases rest with
        | nil => rfl
        | cons x xs =>
          have hx : x.level = 0 := hz x (List.mem_cons_of_mem _ (List.mem_cons_self x xs))
          apply List.takeWhile_cons_of_neg
          simp [hr, hx]
      have hdrop : rest.dropWhile (fun q => r.level < q.level) = rest := by
        cases rest with
        | nil => rfl
        | cons x xs =>
          have hx : x.level = 0 := hz x (List.mem_cons_of_mem _ (List.mem_cons_self x xs))
          apply List.dropWhile_cons_of_neg
          simp [hr, hx]
      simp only [specBuild, htake, hdrop]
      rw [ih _ hrestlen fun p hp => hz p (List.mem_cons_of_mem _ hp)]
      simp [specBuild]

/-- C2: the forest built by `buildTree` is exactly the spec forest of the
surviving Line Records, i.e. each node's parent is the nearest preceding
record of strictly smaller depth and records preceded only by
equal-or-greater depths are roots; the second conjunct checks the
depth-jump scenario (depth 0 followed directly by depth 2) concretely:
`b` becomes a direct child of `a`. -/
theorem ancestry_nearest_shallower (lines : List (List Char)) :
    buildTree lines = specBuild (lines.filterMap parseLine) ∧
    buildTree [['a'], [' ', ' ', ' ', ' ', ' ', ' ', ' ', ' ', 'b']] =
      [TNode.mk ['a'] [TNode.mk ['b'] []]] :=
  ⟨buildTree_eq_specBuild lines, by rfl⟩

/-- C9: the forest contains one node per non-blank line — the pre-order
traversal of `buildTree`'s result lists exactly the parsed records'
contents, in input order (no line dropped, duplicated or reordered). -/
theorem one_node_per_line_in_order (lines : List (List Char)) :
    preorderNames (buildTree lines) = (lines.filterMap parseLine).map Parsed.content := by
  rw [buildTree_eq_specBuild]
  exact preorderNames_specBuild _ _ (le_refl _)

/-- C7: parsing is total — `parseText` is a total function on arbitrary
text and the resulting forest's nodes are exactly the non-blank lines'
trimmed contents in order; and in the degenerate case where no line
reaches four leading whitespace characters every node is a depth-0 root
(childless). -/
theorem parse_total (text : List Char) :
    preorderNames (parseText text) =
      ((splitOnNl text).filterMap parseLine).map Parsed.content ∧
    ((∀ l ∈ splitOnNl text, (l.takeWhile jsWhitespace).length < 4) →
      ∀ nd ∈ parseText text, nd.children = []) := by
  constructor
  · rw [parseText, buildTree_eq_specBuild]
    exact preorderNames_specBuild _ _ (le_refl _)
  · intro hsh nd hnd
    rw [parseText, buildTree_eq_specBuild] at hnd
    have hz : ∀ p ∈ (splitOnNl text).filterMap parseLine, p.level = 0 := by
      intro p hp
      rcases List.mem_filterMap.mp hp with ⟨l, hl, hpl⟩
      rw [(parseLine_some_level hpl).1]
      exact Nat.div_eq_of_lt (hsh l hl)
    rw [specBuild_all_zero _ _ (le_refl _) hz] at hnd
    rcases List.mem_map.mp hnd with ⟨p, _, hpeq⟩
    rw [← hpeq]
    rfl

/-- C8: a line that is empty or all-whitespace parses to no record, and
inserting such a line anywhere between the other lines leaves the built
forest unchanged. -/
theorem blank_lines_skipped (blank : List Char)
    (h : blank.all jsWhitespace = true) (l1 l2 : List (List Char)) :
    parseLine blank = none ∧ buildTree (l1 ++ blank :: l2) = buildTree (l1 ++ l2) := by
  have hall : ∀ c ∈ blank, jsWhitespace c = true := by
    simpa [List.all_eq_true] using h
  have htrim : trim blank = [] := by
    rw [trim, trimLeft, dropWhile_all hall]
    rfl
  have hnone : parseLine blank = none := by
    rw [parseLine, if_pos htrim]
  refine ⟨hnone, ?_⟩
  simp only [buildTree]
  rw [List.foldl_append, List.foldl_append, List.foldl_cons]
  rw [show step (l1.foldl step ([], [])) blank = l1.foldl step ([], []) from by
    simp [step, hnone]]

/-- C8 witness: the spec's scenario — a blank line between `a` and the
4-space-indented `b` contributes nothing. -/
theorem blank_lines_skipped_witness :
    parseLine [] = none ∧
    buildTree [['a'], [], [' ', ' ', ' ', ' ', 'b']] =
      buildTree [['a'], [' ', ' ', ' ', ' ', 'b']] :=
  blank_lines_skipped [] (by decide) [['a']] [[' ', ' ', ' ', ' ', 'b']]

/-- C7 witness: on the concrete malformed-free text `a\nb` the traversal
equation holds and, since no line has four leading spaces, all nodes are
childless roots. -/
theorem parse_total_witness :
    ∀ nd ∈ parseText ['a', '\n', 'b'], nd.children = [] :=
  (parse_total ['a', '\n', 'b']).2 (by decide)

/-- Modelled from the spec (P1 and §9): the number of leading space
characters proper — tabs and other whitespace not counted. -/
def specLeadingSpaceCount (line : List Char) : Nat :=
  (line.takeWhile (fun c => c = ' ')).length

/-- C1 counterexample: the claim "depth counts only leading space
characters, so a tab-indented line has depth 0" is false of the code: the
source counts the characters matched by `/^(\s*)/`, and `\s` matches tabs,
so the line of four tabs followed by `x` gets depth 1, not 0. -/
theorem depth_spaces_only_cex :
    ¬ (∀ (line : List Char) (p : Parsed), parseLine line = some p →
        p.level = specLeadingSpaceCount line / 4) := by
  intro h
  have h1 := h ['\t', '\t', '\t', '\t', 'x'] ⟨1, ['x']⟩ (by decide)
  exact absurd h1 (by decide)

/-- C1 amended: for every line that yields a record, the depth is the
floor of (number of leading whitespace characters, in the ECMAScript `\s`
class — spaces, tabs, and the rest) divided by 4. -/
theorem depth_counts_all_whitespace (line : List Char) (p : Parsed)
    (h : parseLine line = some p) :
    p.level = (line.takeWhile jsWhitespace).length / 4 :=
  (parseLine_some_level h).1

/-- C1 amended witness: the four-tab line gets depth 1 = 4 / 4. -/
theorem depth_counts_all_whitespace_witness :
    (Parsed.mk 1 ['x']).level =
      ((['\t', '\t', '\t', '\t', 'x'] : List Char).takeWhile jsWhitespace).length / 4 :=
  depth_counts_all_whitespace ['\t', '\t', '\t', '\t', 'x'] ⟨1, ['x']⟩ (by decide)

/-- A directory path below the invocation root, as its list of name
segments (`path.join` of the source appends one segment per node). -/
abbrev DirPath := List (List Char)

/-- The two reported outcomes printed by `createFolders`:
`Created: ...` and `Exists:  ...`. -/
inductive Outcome where
  | created
  | existing
deriving DecidableEq

/-- One line of the outcome log: the path and whether it was created or
found existing. -/
structure Report where
  path : DirPath
  outcome : Outcome
deriving DecidableEq

/-- The filesystem: the list of directory paths that exist below the root
(the root itself always exists; order is creation order). -/
abbrev FS := List DirPath

/-- All nonempty prefixes of a path, shortest first: the directories
`fs.mkdirSync(p, { recursive: true })` ensures exist. -/
def ancestors (p : DirPath) : List DirPath :=
  (List.range p.length).map (fun i => p.take (i + 1))

/-- `fs.mkdirSync(p, { recursive: true })`: add every missing prefix of
`p`, outermost first. -/
def mkdirRec (p : DirPath) (fs : FS) : FS :=
  (ancestors p).foldl (fun a q => if q ∈ a then a else a ++ [q]) fs

/-- Result of a materializer run: on success the final filesystem and the
ordered report log; on a thrown `mkdirSync` error the filesystem and the
partial log at the moment of the throw, plus the failing path. -/
abbrev Res := Except (FS × List Report × DirPath) (FS × List Report)

/-- Prepend a report to a run's log (the report was printed before the
rest of the run happened). -/
def withReport (r : Report) : Res → Res
  | .ok (fs, log) => .ok (fs, r :: log)
  | .error (fs, log, q) => .error (fs, r :: log, q)

/-- Sequence two runs: if the first throws, the throw propagates (the
second never happens); otherwise the second starts from the first's
filesystem and the logs concatenate. -/
def andThen : Res → (FS → Res) → Res
  | .error e, _ => .error e
  | .ok (fs, log), k =>
    match k fs with
    | .error (fs2, log2, q) => .error (fs2, log ++ log2, q)
    | .ok (fs2, log2) => .ok (fs2, log ++ log2)

/-- `createFolders` from src/create.js: for each node in order, join the
parent path with the node's name; if the path exists report `Exists` and
create nothing, otherwise `mkdirSync` it recursively (which may throw, per
the oracle `err`) and report `Created`; recurse into the children with the
joined path, then continue with the remaining siblings.  (The source's
`node.children && node.children.length > 0` guard is omitted: recursing
into an empty child list is a no-op.) -/
def createFolders (err : DirPath → Bool) : List TNode → DirPath → FS → Res
  | [], _, fs => .ok (fs, [])
  | .mk nm ch :: rest, parent, fs =>
    if parent ++ [nm] ∈ fs then
      withReport ⟨parent ++ [nm], .existing⟩
        (andThen (createFolders err ch (parent ++ [nm]) fs)
          (fun fs2 => createFolders err rest parent fs2))
    else if err (parent ++ [nm]) then
      .error (fs, [], parent ++ [nm])
    else
      withReport ⟨parent ++ [nm], .created⟩
        (andThen (createFolders err ch (parent ++ [nm])
            (mkdirRec (parent ++ [nm]) fs))
          (fun fs2 => createFolders err rest parent fs2))

/-- The depth-first pre-order list of the paths of a forest's nodes,
siblings in list order. -/
def preorderPaths : List TNode → DirPath → List DirPath
  | [], _ => []
  | .mk nm ch :: rest, parent =>
    (parent ++ [nm]) :: (preorderPaths ch (parent ++ [nm]) ++ preorderPaths rest parent)

/-- The linear view of a run: process a flat list of paths in order with
the same exists/throw/create logic per path. -/
def runPaths (err : DirPath → Bool) : List DirPath → FS → Res
  | [], fs => .ok (fs, [])
  | p :: ps, fs =>
    if p ∈ fs then withReport ⟨p, .existing⟩ (runPaths err ps fs)
    else if err p then .error (fs, [], p)
    else withReport ⟨p, .created⟩ (runPaths err ps (mkdirRec p fs))

/-- The oracle of a run in which `mkdirSync` never throws. -/
def noFailure : DirPath → Bool := fun _ => false

theorem andThen_ok_nil (fs : FS) (k : FS → Res) :
    andThen (.ok (fs, [])) k = k fs := by
  cases hk : k fs with
  | error e =>
    rcases e with ⟨fs2, log2, q⟩
    simp [andThen, hk]
  | ok o =>
    rcases o with ⟨fs2, log2⟩
    simp [andThen, hk]

theorem withReport_andThen (r : Report) (x : Res) (k : FS → Res) :
    withReport r (andThen x k) = andThen (withReport r x) k := by
  cases x with
  | error e =>
    rcases e with ⟨fs2, log2, q⟩
    simp [withReport, andThen]
  | ok o =>
    rcases o with ⟨fs1, log1⟩
    cases hk : k fs1 with
    | error e =>
      rcases e with ⟨fs2, log2, q⟩
      simp [withReport, andThen, hk]
    | ok o2 =>
      rcases o2 with ⟨fs2, log2⟩
      simp [withReport, andThen, hk]

theorem andThen_congr (x : Res) {k1 k2 : FS → Res}
    (h : ∀ fs, k1 fs = k2 fs) : andThen x k1 = andThen x k2 := by
  cases x with
  | error e => rfl
  | ok o =>
    rcases o with ⟨fs1, log1⟩
    simp only [andThen, h fs1]

theorem runPaths_append : ∀ (a b : List DirPath) (err : DirPath → Bool) (fs : FS),
    runPaths err (a ++ b) fs =
      andThen (runPaths err a fs) (fun fs2 => runPaths err b fs2) := by
  intro a
  induction a with
  | nil =>
    intro b err fs
    rw [List.nil_append, runPaths, andThen_ok_nil]
  | cons p ps ih =>
    intro b err fs
    rw [List.cons_append]
    by_cases hm : p ∈ fs
    · rw [runPaths, if_pos hm, ih, withReport_andThen]
      rw [show runPaths err (p :: ps) fs = withReport ⟨p, .existing⟩ (runPaths err ps fs) from by
        rw [runPaths, if_pos hm]]
    · by_cases he : err p
      · rw [runPaths, if_neg hm, if_pos he]
        rw [show runPaths err (p :: ps) fs = .error (fs, [], p) from by
          rw [runPaths, if_neg hm, if_pos he]]
        rfl
      · rw [runPaths, if_neg hm, if_neg he, ih, withReport_andThen]
        rw [show runPaths err (p :: ps) fs =
            withReport ⟨p, .created⟩ (runPaths err ps (mkdirRec p fs)) from by
          rw [runPaths, if_neg hm, if_neg he]]

/-- The recursive `createFolders` is the linear run over the pre-order
path list: the observable outcome stream and filesystem evolution are
those of visiting the forest depth-first, pre-order, siblings in order. -/
theorem createFolders_eq_runPaths : ∀ (n : Nat) (nodes : List TNode),
    sizeOf nodes ≤ n → ∀ (err : DirPath → Bool) (parent : DirPath) (fs : FS),
    createFolders err nodes parent fs =
      runPaths err (preorderPaths nodes parent) fs := by
  intro n
  induction n with
  | zero =>
    intro nodes h
    exact absurd h (by cases nodes <;> simp_arith)
  | succ n ih =>
    intro nodes hn err parent fs
    cases nodes with
    | nil => simp [createFolders, preorderPaths, runPaths]
    | cons nd rest =>
      rcases nd with ⟨nm, ch⟩
      have hch : sizeOf ch ≤ n := by
        simp only [List.cons.sizeOf_spec, TNode.mk.sizeOf_spec] at hn
        omega
      have hrest : sizeOf rest ≤ n := by
        simp only [List.cons.sizeOf_spec, TNode.mk.sizeOf_spec] at hn
        omega
      simp only [preorderPaths]
      by_cases hm : parent ++ [nm] ∈ fs
      · rw [createFolders, if_pos hm, runPaths, if_pos hm, runPaths_append]
        rw [ih ch hch err (parent ++ [nm]) fs]
        exact congrArg (withReport _)
          (andThen_congr _ (fun fs2 => ih rest hrest err parent fs2))
      · by_cases he : err (parent ++ [nm])
        · rw [createFolders, if_neg hm, if_pos he, runPaths, if_neg hm, if_pos he]
        · rw [createFolders, if_neg hm, if_neg he, runPaths, if_neg hm, if_neg he,
            runPaths_append]
          rw [ih ch hch err (parent ++ [nm]) (mkdirRec (parent ++ [nm]) fs)]
          exact congrArg (withReport _)
            (andThen_congr _ (fun fs2 => ih rest hrest err parent fs2))

theorem foldl_add_mem : ∀ (l : List DirPath) (a : FS) (q : DirPath), q ∈ a →
    q ∈ l.foldl (fun a q => if q ∈ a then a else a ++ [q]) a := by
  intro l
  induction l with
  | nil => intro a q h; exact h
  | cons x xs ih =>
    intro a q h
    rw [List.foldl_cons]
    apply ih
    by_cases hx : x ∈ a
    · rw [if_pos hx]; exact h
    · rw [if_neg hx]; exact List.mem_append_left _ h

theorem foldl_add_mem_list : ∀ (l : List DirPath) (a : FS) (q : DirPath), q ∈ l →
    q ∈ l.foldl (fun a q => if q ∈ a then a else a ++ [q]) a := by
  intro l
  induction l with
  | nil => intro a q h; simp at h
  | cons x xs ih =>
    intro a q h
    rw [List.foldl_cons]
    rcases List.mem_cons.mp h with h | h
    · subst h
      apply foldl_add_mem
      by_cases hx : q ∈ a
      · rw [if_pos hx]; exact hx
      · rw [if_neg hx]
        exact List.mem_append_right _ (List.mem_singleton.mpr rfl)
    · exact ih _ _ h

theorem mem_mkdirRec_of_mem {q p : DirPath} {fs : FS} (h : q ∈ fs) :
    q ∈ mkdirRec p fs :=
  foldl_add_mem _ _ _ h

theorem self_mem_mkdirRec {p : DirPath} (fs : FS) (h : p ≠ []) :
    p ∈ mkdirRec p fs := by
  apply foldl_add_mem_list
  rw [ancestors]
  apply List.mem_map.mpr
  refine ⟨p.length - 1, ?_, ?_⟩
  · apply List.mem_range.mpr
    have := List.length_pos.mpr h
    omega
  · have hlen := List.length_pos.mpr h
    rw [Nat.sub_add_cancel hlen]
    exact List.take_length p

theorem withReport_eq_ok {r : Report} {x : Res} {fs2 : FS} {log : List Report}
    (h : withReport r x = .ok (fs2, log)) :
    ∃ log2, x = .ok (fs2, log2) ∧ log = r :: log2 := by
  cases x with
  | ok o =>
    rcases o with ⟨fs3, log3⟩
    simp [withReport] at h
    exact ⟨log3, by rw [h.1], h.2.symm⟩
  | error e =>
    rcases e with ⟨fs3, log3, q3⟩
    simp [withReport] at h

theorem withReport_eq_error {r : Report} {x : Res} {fs2 : FS}
    {log : List Report} {q : DirPath}
    (h : withReport r x = .error (fs2, log, q)) :
    ∃ log2, x = .error (fs2, log2, q) ∧ log = r :: log2 := by
  cases x with
  | error e =>
    rcases e with ⟨fs3, log3, q3⟩
    simp [withReport] at h
    exact ⟨log3, by rw [h.1, h.2.2], h.2.1.symm⟩
  | ok o =>
    rcases o with ⟨fs3, log3⟩
    simp [withReport] at h

theorem runPaths_ok_paths : ∀ (ps : List DirPath) (err : DirPath → Bool),
    ∀ (fs fs2 : FS) (log : List Report),
    runPaths err ps fs = .ok (fs2, log) → log.map Report.path = ps := by
  intro ps err
  induction ps with
  | nil =>
    intro fs fs2 log h
    rw [runPaths] at h
    simp at h
    rw [h.2]
    rfl
  | cons p ps ih =>
    intro fs fs2 log h
    by_cases hm : p ∈ fs
    · rw [runPaths, if_pos hm] at h
      obtain ⟨log2, hx, rfl⟩ := withReport_eq_ok h
      rw [List.map_cons]
      rw [ih _ _ _ hx]
    · by_cases he : err p
      · rw [runPaths, if_neg hm, if_pos he] at h
        exact Except.noConfusion h
      · rw [runPaths, if_neg hm, if_neg he] at h
        obtain ⟨log2, hx, rfl⟩ := withReport_eq_ok h
        rw [List.map_cons]
        rw [ih _ _ _ hx]

theorem runPaths_ok_mono : ∀ (ps : List DirPath) (err : DirPath → Bool),
    ∀ (fs fs2 : FS) (log : List Report),
    runPaths err ps fs = .ok (fs2, log) → ∀ q ∈ fs, q ∈ fs2 := by
  intro ps err
  induction ps with
  | nil =>
    intro fs fs2 log h q hq
    rw [runPaths] at h
    simp at h
    rw [← h.1]
    exact hq
  | cons p ps ih =>
    intro fs fs2 log h q hq
    by_cases hm : p ∈ fs
    · rw [runPaths, if_pos hm] at h
      obtain ⟨log2, hx, rfl⟩ := withReport_eq_ok h
      exact ih _ _ _ hx q hq
    · by_cases he : err p
      · rw [runPaths, if_neg hm, if_pos he] at h
        exact Except.noConfusion h
      · rw [runPaths, if_neg hm, if_neg he] at h
        obtain ⟨log2, hx, rfl⟩ := withReport_eq_ok h
        exact ih _ _ _ hx q (mem_mkdirRec_of_mem hq)

theorem runPaths_ok_mem : ∀ (ps : List DirPath) (err : DirPath → Bool),
    ∀ (fs fs2 : FS) (log : List Report), (∀ p ∈ ps, p ≠ []) →
    runPaths err ps fs = .ok (fs2, log) → ∀ p ∈ ps, p ∈ fs2 := by
  intro ps err
  induction ps with
  | nil =>
    intro fs fs2 log _ _ p hp
    simp at hp
  | cons p ps ih =>
    intro fs fs2 log hne h x hx
    by_cases hm : p ∈ fs
    · rw [runPaths, if_pos hm] at h
      obtain ⟨log2, hrun, rfl⟩ := withReport_eq_ok h
      rcases List.mem_cons.mp hx with hx | hx
      · subst hx
        exact runPaths_ok_mono _ _ _ _ _ hrun x hm
      · exact ih _ _ _ (fun y hy => hne y (List.mem_cons_of_mem _ hy)) hrun x hx
    · by_cases he : err p
      · rw [runPaths, if_neg hm, if_pos he] at h
        exact Except.noConfusion h
      · rw [runPaths, if_neg hm, if_neg he] at h
        obtain ⟨log2, hrun, rfl⟩ := withReport_eq_ok h
        rcases List.mem_cons.mp hx with hx | hx
        · subst hx
          exact runPaths_ok_mono _ _ _ _ _ hrun x
            (self_mem_mkdirRec fs (hne x (List.mem_cons_self x ps)))
        · exact ih _ _ _ (fun y hy => hne y (List.mem_cons_of_mem _ hy)) hrun x hx

theorem runPaths_all_existing : ∀ (ps : List DirPath) (err : DirPath → Bool)
    (fs : FS), (∀ p ∈ ps, p ∈ fs) →
    runPaths err ps fs = .ok (fs, ps.map (fun p => ⟨p, Outcome.existing⟩)) := by
  intro ps err
  induction ps with
  | nil => intro fs _; rfl
  | cons p ps ih =>
    intro fs hall
    have hm : p ∈ fs := hall p (List.mem_cons_self p ps)
    rw [runPaths, if_pos hm, ih fs (fun y hy => hall y (List.mem_cons_of_mem _ hy))]
    rfl

theorem runPaths_error_facts : ∀ (ps : List DirPath) (err : DirPath → Bool),
    ∀ (fs fs2 : FS) (log : List Report) (q : DirPath), (∀ p ∈ ps, p ≠ []) →
    runPaths err ps fs = .error (fs2, log, q) →
    (∃ suffix, ps = log.map Report.path ++ q :: suffix) ∧
    err q = true ∧ q ∉ fs2 ∧ (∀ x ∈ fs, x ∈ fs2) ∧ (∀ r ∈ log, r.path ∈ fs2) := by
  intro ps err
  induction ps with
  | nil =>
    intro fs fs2 log q _ h
    rw [runPaths] at h
    exact Except.noConfusion h
  | cons p ps ih =>
    intro fs fs2 log q hne h
    by_cases hm : p ∈ fs
    · rw [runPaths, if_pos hm] at h
      obtain ⟨log2, hrun, rfl⟩ := withReport_eq_error h
      obtain ⟨⟨suffix, hsuf⟩, herr, hq, hmono, hlog⟩ :=
        ih _ _ _ _ (fun y hy => hne y (List.mem_cons_of_mem _ hy)) hrun
      refine ⟨⟨suffix, ?_⟩, herr, hq, hmono, ?_⟩
      · rw [List.map_cons, List.cons_append, hsuf]
      · intro r hr
        rcases List.mem_cons.mp hr with hr | hr
        · rw [hr]
          exact hmono p hm
        · exact hlog r hr
    · by_cases he : err p
      · rw [runPaths, if_neg hm, if_pos he] at h
        simp at h
        obtain ⟨h1, h2, h3⟩ := h
        subst h1; subst h3; subst h2
        refine ⟨⟨ps, by simp⟩, he, hm, fun x hx => hx, by simp⟩
      · rw [runPaths, if_neg hm, if_neg he] at h
        obtain ⟨log2, hrun, rfl⟩ := withReport_eq_error h
        obtain ⟨⟨suffix, hsuf⟩, herr, hq, hmono, hlog⟩ :=
          ih _ _ _ _ (fun y hy => hne y (List.mem_cons_of_mem _ hy)) hrun
        refine ⟨⟨suffix, ?_⟩, herr, hq,
          fun x hx => hmono x (mem_mkdirRec_of_mem hx), ?_⟩
        · rw [List.map_cons, List.cons_append, hsuf]
        · intro r hr
          rcases List.mem_cons.mp hr with hr | hr
          · rw [hr]
            exact hmono p (self_mem_mkdirRec fs (hne p (List.mem_cons_self p ps)))
          · exact hlog r hr

theorem preorderPaths_ne_nil : ∀ (n : Nat) (nodes : List TNode),
    sizeOf nodes ≤ n → ∀ (parent : DirPath) (p : DirPath),
    p ∈ preorderPaths nodes parent → p ≠ [] := by
  intro n
  induction n with
  | zero =>
    intro nodes h
    exact absurd h (by cases nodes <;> simp_arith)
  | succ n ih =>
    intro nodes hn parent p hp
    cases nodes with
    | nil => simp [preorderPaths] at hp
    | cons nd rest =>
      rcases nd with ⟨nm, ch⟩
      have hch : sizeOf ch ≤ n := by
        simp only [List.cons.sizeOf_spec, TNode.mk.sizeOf_spec] at hn
        omega
      have hrest : sizeOf rest ≤ n := by
        simp only [List.cons.sizeOf_spec, TNode.mk.sizeOf_spec] at hn
        omega
      rw [preorderPaths] at hp
      rcases List.mem_cons.mp hp with hp | hp
      · subst hp
        simp
      · rcases List.mem_append.mp hp with hp | hp
        · exact ih ch hch _ p hp
        · exact ih rest hrest _ p hp

/-- C4: on a successful run the report stream of `createFolders` is
exactly the depth-first pre-order traversal of the forest, siblings in
list (source) order: node before subtree, sibling subtrees contiguous. -/
theorem reports_preorder (err : DirPath → Bool) (nodes : List TNode)
    (parent : DirPath) (fs fs2 : FS) (log : List Report)
    (h : createFolders err nodes parent fs = .ok (fs2, log)) :
    log.map Report.path = preorderPaths nodes parent := by
  rw [createFolders_eq_runPaths (sizeOf nodes) nodes (le_refl _)] at h
  exact runPaths_ok_paths _ _ _ _ _ h

/-- C4 witness: one root `a` created under an empty filesystem. -/
theorem reports_preorder_witness :
    ([⟨[['a']], Outcome.created⟩] : List Report).map Report.path =
      preorderPaths [TNode.mk ['a'] []] [] :=
  reports_preorder noFailure [TNode.mk ['a'] []] [] [] [[['a']]]
    [⟨[['a']], Outcome.created⟩]
    (by simp [createFolders, noFailure, mkdirRec, ancestors, withReport, andThen])

/-- C3: materialization is idempotent — a second run of `createFolders`
over the filesystem left by a successful first run reports `Exists` for
every path (same paths, same order), creates nothing, and returns the
identical filesystem. -/
theorem idempotent_second_run (nodes : List TNode) (root : DirPath)
    (fs0 fs1 : FS) (log1 : List Report)
    (h : createFolders noFailure nodes root fs0 = .ok (fs1, log1)) :
    createFolders noFailure nodes root fs1 =
      .ok (fs1, log1.map (fun r => ⟨r.path, Outcome.existing⟩)) := by
  rw [createFolders_eq_runPaths (sizeOf nodes) nodes (le_refl _)] at h ⊢
  have hpaths := runPaths_ok_paths _ _ _ _ _ h
  have hne : ∀ p ∈ preorderPaths nodes root, p ≠ [] :=
    fun p hp => preorderPaths_ne_nil (sizeOf nodes) nodes (le_refl _) root p hp
  have hmem : ∀ p ∈ preorderPaths nodes root, p ∈ fs1 :=
    runPaths_ok_mem _ _ _ _ _ hne h
  rw [runPaths_all_existing _ _ _ hmem]
  rw [← hpaths, List.map_map]
  rfl

/-- C3 witness: re-running over the filesystem produced by creating root
`b` reports `Exists` and changes nothing. -/
theorem idempotent_second_run_witness :
    createFolders noFailure [TNode.mk ['b'] []] [] [[['b']]] =
      .ok ([[['b']]], ([⟨[['b']], Outcome.created⟩] : List Report).map
        (fun r => ⟨r.path, Outcome.existing⟩)) :=
  idempotent_second_run [TNode.mk ['b'] []] [] [] [[['b']]]
    [⟨[['b']], Outcome.created⟩]
    (by simp [createFolders, noFailure, mkdirRec, ancestors, withReport, andThen])

/-- C5: if `mkdirSync` throws at a path (other than the exists case, which
is checked first and never throws), the run aborts: the reports emitted
form exactly the pre-order prefix strictly before the failing path, the
failing path itself gets no report (in particular no `Created`), and the
filesystem keeps everything it had — directories created before the
failure remain (no rollback). -/
theorem failure_aborts (err : DirPath → Bool) (nodes : List TNode)
    (parent : DirPath) (fs fs2 : FS) (log : List Report) (q : DirPath)
    (h : createFolders err nodes parent fs = .error (fs2, log, q)) :
    (∃ suffix, preorderPaths nodes parent = log.map Report.path ++ q :: suffix) ∧
    q ∉ log.map Report.path ∧ err q = true ∧ q ∉ fs2 ∧
    (∀ x ∈ fs, x ∈ fs2) ∧ (∀ r ∈ log, r.path ∈ fs2) := by
  rw [createFolders_eq_runPaths (sizeOf nodes) nodes (le_refl _)] at h
  have hne : ∀ p ∈ preorderPaths nodes parent, p ≠ [] :=
    fun p hp => preorderPaths_ne_nil (sizeOf nodes) nodes (le_refl _) parent p hp
  obtain ⟨hsuf, herr, hq, hmono, hlog⟩ := runPaths_error_facts _ _ _ _ _ _ hne h
  refine ⟨hsuf, ?_, herr, hq, hmono, hlog⟩
  intro hqin
  rcases List.mem_map.mp hqin with ⟨r, hr, hrq⟩
  exact hq (hrq ▸ hlog r hr)

/-- C5 witness: a run whose only node `x` fails to create aborts at once
with an empty log and untouched (empty) filesystem. -/
theorem failure_aborts_witness :
    (∃ suffix, preorderPaths [TNode.mk ['x'] []] [] =
        ([] : List Report).map Report.path ++ ([['x']] : DirPath) :: suffix) ∧
    ([['x']] : DirPath) ∉ ([] : List Report).map Report.path ∧
    (fun x => decide (x = ([['x']] : DirPath))) [['x']] = true ∧
    ([['x']] : DirPath) ∉ ([] : FS) ∧
    (∀ x ∈ ([] : FS), x ∈ ([] : FS)) ∧
    (∀ r ∈ ([] : List Report), r.path ∈ ([] : FS)) :=
  failure_aborts (fun x => decide (x = ([['x']] : DirPath)))
    [TNode.mk ['x'] []] [] [] [] [] [['x']]
    (by simp [createFolders, withReport, andThen])

/-- C6: a node whose path already exists is reported `Exists`, triggers no
creation and no error (even if `mkdirSync` would throw there), and the
run still descends into its children with that path as the new parent,
from the unchanged filesystem, before continuing with the siblings. -/
theorem existing_short_circuit (err : DirPath → Bool) (nm : List Char)
    (ch rest : List TNode) (parent : DirPath) (fs : FS)
    (h : parent ++ [nm] ∈ fs) :
    createFolders err (TNode.mk nm ch :: rest) parent fs =
      withReport ⟨parent ++ [nm], Outcome.existing⟩
        (runPaths err (preorderPaths ch (parent ++ [nm]) ++
          preorderPaths rest parent) fs) := by
  rw [createFolders, if_pos h]
  rw [runPaths_append]
  rw [createFolders_eq_runPaths (sizeOf ch) ch (le_refl _)]
  exact congrArg (withReport _) (andThen_congr _
    (fun fs2 => createFolders_eq_runPaths (sizeOf rest) rest (le_refl _) err parent fs2))

/-- C6 witness: node `c` whose path already exists, with an oracle that
would throw at that very path — reported `Exists`, no error. -/
theorem existing_short_circuit_witness :
    createFolders (fun x => decide (x = ([['c']] : DirPath)))
        [TNode.mk ['c'] []] [] [[['c']]] =
      withReport ⟨[['c']], Outcome.existing⟩
        (runPaths (fun x => decide (x = ([['c']] : DirPath)))
          (preorderPaths [] [['c']] ++ preorderPaths [] []) [[['c']]]) :=
  existing_short_circuit (fun x => decide (x = ([['c']] : DirPath)))
    ['c'] [] [] [] [[['c']]] (by simp)

/-- The pre-order names of `buildTree`'s forest are the surviving records'
contents in order. -/
theorem preorderNames_buildTree (lines : List (List Char)) :
    preorderNames (buildTree lines) = (lines.filterMap parseLine).map Parsed.content := by
  rw [buildTree_eq_specBuild]
  exact preorderNames_specBuild _ _ (le_refl _)

/-- The text with all carriage returns removed. -/
def removeCR (l : List Char) : List Char := l.filter (fun c => c ≠ '\r')

/-- Every newline in the text is immediately preceded by a carriage
return (the hypothesis of the CRLF claim, stated as written). -/
def nlPrecededAux : Option Char → List Char → Bool
  | _, [] => true
  | prev, c :: rest =>
    (if c = '\n' then decide (prev = some '\r') else true) && nlPrecededAux (some c) rest

/-- Wrapper for `nlPrecededAux` starting with no previous character. -/
def nlPreceded (l : List Char) : Bool := nlPrecededAux none l

/-- Every carriage return in the text is immediately followed by a
newline (no stray carriage returns). -/
def crOk : List Char → Bool
  | [] => true
  | c :: rest =>
    (if c = '\r' then decide (rest.head? = some '\n') else true) && crOk rest

/-- In a single (newline-free) line: a carriage return may occur only as
the final character. -/
def crTrailOnly : List Char → Bool
  | [] => true
  | c :: rest => if c = '\r' then decide (rest = []) else crTrailOnly rest

theorem splitOnNl_ne_nil : ∀ s : List Char, splitOnNl s ≠ [] := by
  intro s
  cases s with
  | nil => simp [splitOnNl]
  | cons c rest =>
    rw [splitOnNl]
    by_cases h : c = '\n'
    · rw [if_pos h]; simp
    · rw [if_neg h]
      cases hs : splitOnNl rest with
      | nil => simp [consHead]
      | cons l ls => simp [consHead]

theorem splitOnNl_removeCR : ∀ s : List Char,
    splitOnNl (removeCR s) = (splitOnNl s).map removeCR := by
  intro s
  induction s with
  | nil => rfl
  | cons c rest ih =>
    by_cases hn : c = '\n'
    · subst hn
      rw [show removeCR ('\n' :: rest) = '\n' :: removeCR rest from by
        simp [removeCR]]
      rw [splitOnNl, if_pos rfl, splitOnNl, if_pos rfl, ih, List.map_cons]
      rfl
    · by_cases hr : c = '\r'
      · subst hr
        rw [show removeCR ('\r' :: rest) = removeCR rest from by simp [removeCR]]
        rw [ih, splitOnNl, if_neg hn]
        cases hs : splitOnNl rest with
        | nil => exact absurd hs (splitOnNl_ne_nil rest)
        | cons l ls =>
          rw [consHead, List.map_cons, List.map_cons]
          rw [show removeCR ('\r' :: l) = removeCR l from by simp [removeCR]]
      · rw [show removeCR (c :: rest) = c :: removeCR rest from by
          simp [removeCR, hr]]
        rw [splitOnNl, if_neg hn, splitOnNl, if_neg hn, ih]
        cases hs : splitOnNl rest with
        | nil => exact absurd hs (splitOnNl_ne_nil rest)
        | cons l ls =>
          rw [List.map_cons, consHead, consHead, List.map_cons]
          rw [show removeCR (c :: l) = c :: removeCR l from by
            simp [removeCR, hr]]

theorem crOk_lines : ∀ s : List Char, crOk s = true →
    ∀ l ∈ splitOnNl s, crTrailOnly l = true := by
  intro s
  induction s with
  | nil =>
    intro _ l hl
    rw [splitOnNl] at hl
    rcases List.mem_singleton.mp hl with rfl
    rfl
  | cons c rest ih =>
    intro h l hl
    rw [crOk, Bool.and_eq_true] at h
    obtain ⟨hc, hrest⟩ := h
    by_cases hn : c = '\n'
    · subst hn
      rw [splitOnNl, if_pos rfl] at hl
      rcases List.mem_cons.mp hl with rfl | hl
      · rfl
      · exact ih hrest l hl
    · by_cases hr : c = '\r'
      · subst hr
        rw [if_pos rfl] at hc
        have hhead : rest.head? = some '\n' := of_decide_eq_true hc
        cases rest with
        | nil => simp at hhead
        | cons d rest2 =>
          have hd : d = '\n' := by simpa using hhead
          subst hd
          rw [splitOnNl, if_neg (by decide)] at hl
          rw [splitOnNl, if_pos rfl, consHead] at hl
          rcases List.mem_cons.mp hl with rfl | hl
          · rfl
          · apply ih hrest
            rw [splitOnNl, if_pos rfl]
            exact List.mem_cons_of_mem _ hl
      · rw [splitOnNl, if_neg hn] at hl
        cases hs : splitOnNl rest with
        | nil => exact absurd hs (splitOnNl_ne_nil rest)
        | cons l0 ls =>
          rw [hs, consHead] at hl
          rcases List.mem_cons.mp hl with rfl | hl
          · rw [crTrailOnly, if_neg hr]
            apply ih hrest
            rw [hs]
            exact List.mem_cons_self l0 ls
          · apply ih hrest
            rw [hs]
            exact List.mem_cons_of_mem _ hl

theorem dropWhile_append_nil {α : Type} {p : α → Bool} :
    ∀ {t : List α} (u : List α), t.dropWhile p = [] →
    (t ++ u).dropWhile p = u.dropWhile p := by
  intro t
  induction t with
  | nil => intro u _; rfl
  | cons a t ih =>
    intro u h
    by_cases ha : p a
    · rw [List.dropWhile_cons_of_pos ha] at h
      rw [List.cons_append, List.dropWhile_cons_of_pos ha]
      exact ih u h
    · rw [List.dropWhile_cons_of_neg ha] at h
      exact absurd h (by simp)

theorem dropWhile_append_ne {α : Type} {p : α → Bool} :
    ∀ {t : List α} (u : List α), t.dropWhile p ≠ [] →
    (t ++ u).dropWhile p = t.dropWhile p ++ u := by
  intro t
  induction t with
  | nil => intro u h; exact absurd rfl h
  | cons a t ih =>
    intro u h
    by_cases ha : p a
    · rw [List.dropWhile_cons_of_pos ha] at h
      rw [List.cons_append, List.dropWhile_cons_of_pos ha,
        List.dropWhile_cons_of_pos ha]
      exact ih u h
    · rw [List.cons_append, List.dropWhile_cons_of_neg ha,
        List.dropWhile_cons_of_neg ha, List.cons_append]

theorem takeWhile_append_ne {α : Type} {p : α → Bool} :
    ∀ {t : List α} (u : List α), t.dropWhile p ≠ [] →
    (t ++ u).takeWhile p = t.takeWhile p := by
  intro t
  induction t with
  | nil => intro u h; exact absurd rfl h
  | cons a t ih =>
    intro u h
    by_cases ha : p a
    · rw [List.dropWhile_cons_of_pos ha] at h
      rw [List.cons_append, List.takeWhile_cons_of_pos ha,
        List.takeWhile_cons_of_pos ha, ih u h]
    · rw [List.cons_append, List.takeWhile_cons_of_neg ha,
        List.takeWhile_cons_of_neg ha]

theorem trimRight_append_ws {t : List Char} {w : Char}
    (hw : jsWhitespace w = true) : trimRight (t ++ [w]) = trimRight t := by
  rw [trimRight, trimRight]
  have hrev : (t ++ [w]).reverse = w :: t.reverse := by simp
  rw [hrev, List.dropWhile_cons_of_pos hw]

/-- Appending a trailing whitespace character to a line does not change
what `parseLine` returns. -/
theorem parseLine_append_ws {t : List Char} {w : Char}
    (hw : jsWhitespace w = true) : parseLine (t ++ [w]) = parseLine t := by
  by_cases h : trimLeft t = []
  · have h1 : trim (t ++ [w]) = [] := by
      rw [trim, trimLeft, dropWhile_append_nil [w] h]
      rw [show List.dropWhile jsWhitespace [w] = [] from by
        rw [List.dropWhile_cons_of_pos hw]; rfl]
      rfl
    have h2 : trim t = [] := by
      rw [trim, trimLeft] at *
      rw [h]
      rfl
    rw [parseLine, if_pos h1, parseLine, if_pos h2]
  · have h1 : trim (t ++ [w]) = trim t := by
      rw [trim, trim, trimLeft, trimLeft, dropWhile_append_ne [w] h]
      exact trimRight_append_ws hw
    have h2 : (t ++ [w]).takeWhile jsWhitespace = t.takeWhile jsWhitespace :=
      takeWhile_append_ne [w] h
    rw [parseLine, parseLine, h1, h2]

/-- Structure of a line whose carriage returns are only trailing: either
it has none, or it is a CR-free prefix followed by one final CR. -/
theorem crTrailOnly_shape : ∀ {l : List Char}, crTrailOnly l = true →
    ('\r' ∉ l ∧ removeCR l = l) ∨
    (∃ t, l = t ++ ['\r'] ∧ '\r' ∉ t ∧ removeCR l = t) := by
  intro l
  induction l with
  | nil => intro _; left; constructor <;> simp [removeCR]
  | cons c rest ih =>
    intro h
    by_cases hr : c = '\r'
    · subst hr
      rw [crTrailOnly, if_pos rfl] at h
      have hrest : rest = [] := of_decide_eq_true h
      subst hrest
      right
      exact ⟨[], rfl, by simp, by simp [removeCR]⟩
    · rw [crTrailOnly, if_neg hr] at h
      rcases ih h with ⟨hnotin, hrm⟩ | ⟨t, hteq, htin, htrm⟩
      · left
        constructor
        · intro hmem
          rcases List.mem_cons.mp hmem with h1 | h1
          · exact hr h1.symm
          · exact hnotin h1
        · rw [show removeCR (c :: rest) = c :: removeCR rest from by
            simp [removeCR, hr], hrm]
      · right
        refine ⟨c :: t, by rw [hteq, List.cons_append], ?_, ?_⟩
        · simp [htin]
          intro hcontra
          exact hr hcontra.symm
        · rw [show removeCR (c :: rest) = c :: removeCR rest from by
            simp [removeCR, hr], htrm]

/-- A line with only a trailing carriage return parses identically to the
line with the carriage return removed. -/
theorem parseLine_crTrailOnly {l : List Char} (h : crTrailOnly l = true) :
    parseLine (removeCR l) = parseLine l := by
  rcases crTrailOnly_shape h with ⟨_, hrm⟩ | ⟨t, hteq, _, htrm⟩
  · rw [hrm]
  · rw [htrm, hteq]
    exact (parseLine_append_ws (by decide)).symm

/-- Lines that parse identically build identical trees. -/
theorem buildTree_parseLine_congr : ∀ (lines : List (List Char))
    (f : List Char → List Char), (∀ l ∈ lines, parseLine (f l) = parseLine l) →
    buildTree (lines.map f) = buildTree lines := by
  have haux : ∀ (lines : List (List Char)) (f : List Char → List Char)
      (st : List Frame × List TNode),
      (∀ l ∈ lines, parseLine (f l) = parseLine l) →
      (lines.map f).foldl step st = lines.foldl step st := by
    intro lines f
    induction lines with
    | nil => intro st _; rfl
    | cons l lines ih =>
      intro st h
      rw [List.map_cons, List.foldl_cons, List.foldl_cons]
      rw [show step st (f l) = step st l from by
        rw [step, step, h l (List.mem_cons_self l lines)]]
      exact ih _ fun y hy => h y (List.mem_cons_of_mem _ hy)
  intro lines f h
  simp only [buildTree]
  rw [haux lines f ([], []) h]

theorem mem_line_mem_text : ∀ (s l : List Char) (c : Char),
    l ∈ splitOnNl s → c ∈ l → c ∈ s := by
  intro s
  induction s with
  | nil =>
    intro l c hl hc
    rw [splitOnNl] at hl
    rcases List.mem_singleton.mp hl with rfl
    simp at hc
  | cons x rest ih =>
    intro l c hl hc
    by_cases hx : x = '\n'
    · subst hx
      rw [splitOnNl, if_pos rfl] at hl
      rcases List.mem_cons.mp hl with rfl | hl
      · simp at hc
      · exact List.mem_cons_of_mem _ (ih l c hl hc)
    · rw [splitOnNl, if_neg hx] at hl
      cases hs : splitOnNl rest with
      | nil => exact absurd hs (splitOnNl_ne_nil rest)
      | cons l0 ls =>
        rw [hs, consHead] at hl
        rcases List.mem_cons.mp hl with rfl | hl
        · rcases List.mem_cons.mp hc with rfl | hc
          · exact List.mem_cons_self c rest
          · exact List.mem_cons_of_mem _
              (ih l0 c (by rw [hs]; exact List.mem_cons_self l0 ls) hc)
        · exact List.mem_cons_of_mem _
            (ih l c (by rw [hs]; exact List.mem_cons_of_mem _ hl) hc)

theorem cr_not_mem_removeCR (s : List Char) : '\r' ∉ removeCR s := by
  intro h
  rw [removeCR] at h
  have := List.of_mem_filter h
  simp at this

theorem mem_trim_mem {c : Char} {l : List Char} (h : c ∈ trim l) : c ∈ l := by
  rw [trim, trimRight] at h
  have h1 := List.mem_reverse.mp h
  have h2 := mem_dropWhile_mem h1
  have h3 := List.mem_reverse.mp h2
  rw [trimLeft] at h3
  exact mem_dropWhile_mem h3

/-- C10 counterexample: the claim's hypothesis ("every newline is preceded
by a carriage return") is satisfied by the text `a\rb\r\n`, which has a
stray mid-line carriage return — yet its forest differs from that of the
CR-stripped text (the root is named `a\rb` versus `ab`), and a node name
does contain a carriage return. -/
theorem crlf_transparent_cex :
    nlPreceded ['a', '\r', 'b', '\r', '\n'] = true ∧
    '\r' ∈ (List.map TNode.name (parseText ['a', '\r', 'b', '\r', '\n'])).flatten ∧
    parseText ['a', '\r', 'b', '\r', '\n'] ≠
      parseText (removeCR ['a', '\r', 'b', '\r', '\n']) := by
  refine ⟨by decide, by decide, ?_⟩
  intro h
  have h2 := congrArg (List.map TNode.name) h
  exact absurd h2 (by decide)

/-- C10 amended: for texts with proper CRLF line endings — every newline
preceded by a carriage return and, additionally, every carriage return
immediately followed by a newline (no stray carriage returns) — parsing
yields the same forest as parsing with the carriage returns removed, and
no node name contains a carriage return. -/
theorem crlf_transparent (text : List Char)
    (_h1 : nlPreceded text = true) (h2 : crOk text = true) :
    parseText text = parseText (removeCR text) ∧
    ∀ nm ∈ preorderNames (parseText text), '\r' ∉ nm := by
  have heq : parseText (removeCR text) = parseText text := by
    rw [parseText, parseText, splitOnNl_removeCR]
    exact buildTree_parseLine_congr (splitOnNl text) removeCR
      fun l hl => parseLine_crTrailOnly (crOk_lines text h2 l hl)
  constructor
  · exact heq.symm
  · intro nm hnm
    rw [← heq, parseText, preorderNames_buildTree] at hnm
    rcases List.mem_map.mp hnm with ⟨p, hp, hpnm⟩
    rcases List.mem_filterMap.mp hp with ⟨l, hl, hpl⟩
    intro hcr
    rw [← hpnm, (parseLine_some_level hpl).2] at hcr
    exact cr_not_mem_removeCR text
      (mem_line_mem_text (removeCR text) l '\r' hl (mem_trim_mem hcr))

/-- C10 amended witness: the CRLF text `a\r\n    b` parses like its
LF-only counterpart and its node names are CR-free. -/
theorem crlf_transparent_witness :
    parseText ['a', '\r', '\n', ' ', ' ', ' ', ' ', 'b'] =
      parseText (removeCR ['a', '\r', '\n', ' ', ' ', ' ', ' ', 'b']) ∧
    ∀ nm ∈ preorderNames (parseText ['a', '\r', '\n', ' ', ' ', ' ', ' ', 'b']),
      '\r' ∉ nm :=
  crlf_transparent ['a', '\r', '\n', ' ', ' ', ' ', ' ', 'b'] (by decide) (by decide)
